import Mathlib

/-!
Verification of the algebraic core of the jolt proving system: the dense
multilinear polynomial engine (variable binding and evaluation), the
variable-base windowed-bucket MSM engine, and the toolchain retry/backoff
helpers, shallowly embedded in Lean 4.

The polynomial and MSM engines are exercised by `benches/iai.rs` but their
bodies live outside the provided sources, so those definitions are modelled
from the specification text.  The toolchain helpers are translated directly
from `src/host/toolchain.rs`.
-/

namespace Jolt

/-! ## Dense multilinear polynomial engine -/

/-- Error taxonomy of the polynomial engine, from the spec's error-handling
design: `InvalidShape` for a non-power-of-two or empty table,
`NoVariablesRemaining` for binding with zero variables, `DimensionMismatch`
for an evaluation point of the wrong length. -/
inductive PolyError where
  | InvalidShape
  | NoVariablesRemaining
  | DimensionMismatch
  deriving DecidableEq

/-- Modelled from the spec: a dense multilinear polynomial stores the table
of its evaluations over the Boolean hypercube (`Z`, of length `2 ^ num_vars`)
together with the current variable count `num_vars`. -/
structure DensePolynomial (F : Type) where
  num_vars : Nat
  Z : List F
  deriving DecidableEq

/-- Fuel-based power-of-two test (structural recursion so that the kernel can
evaluate it): `isPow2Aux fuel n` decides whether `n` is a power of two,
halving `n` while consuming fuel. -/
def isPow2Aux : Nat → Nat → Bool
  | _, 0 => false
  | _, 1 => true
  | 0, _ + 2 => false
  | fuel + 1, n + 2 => (n + 2) % 2 == 0 && isPow2Aux fuel ((n + 2) / 2)

/-- `isPow2 n` is true exactly when `n` is a power of two. -/
def isPow2 (n : Nat) : Bool := isPow2Aux n n

/-- Fuel-based base-two logarithm (structural recursion):
`log2Aux fuel n` counts how often `n ≥ 2` can be halved. -/
def log2Aux : Nat → Nat → Nat
  | fuel + 1, n + 2 => log2Aux fuel ((n + 2) / 2) + 1
  | _, _ => 0

/-- Number of variables of a table of length `len`, i.e. `log2 len`. -/
def num_vars_of (len : Nat) : Nat := log2Aux len len

/-- Modelled from the spec: `Construct(evaluations)` fails with
`InvalidShape` unless the table length is a (positive) power of two, and
otherwise yields a polynomial with `num_vars = log2(length)`. -/
def DensePolynomial.new {F : Type} (evals : List F) :
    Except PolyError (DensePolynomial F) :=
  if isPow2 evals.length then
    Except.ok ⟨num_vars_of evals.length, evals⟩
  else
    Except.error PolyError.InvalidShape

/-- Modelled from the spec: `BindTopVariable(r)` splits the table into the
low half (top variable fixed to 0) and high half (top variable fixed to 1)
and replaces it by the pointwise affine interpolation
`low[i] + r * (high[i] - low[i])`, decrementing `num_vars`.  It fails with
`NoVariablesRemaining` when `num_vars = 0`.  The Rust name is
`bound_poly_var_top` (see `benches/iai.rs`). -/
def bound_poly_var_top {F : Type} [Field F] (p : DensePolynomial F) (r : F) :
    Except PolyError (DensePolynomial F) :=
  if p.num_vars = 0 then
    Except.error PolyError.NoVariablesRemaining
  else
    let half := p.Z.length / 2
    Except.ok ⟨p.num_vars - 1,
      List.zipWith (fun a b => a + r * (b - a)) (p.Z.take half) (p.Z.drop half)⟩

/-- Modelled from the spec: the Lagrange-basis weights of a point.  For a
point `x :: rest` the weight of a vertex in the low half carries the factor
`1 - x` and in the high half the factor `x`, matching the spec's
"product over bits of `point_k` if the bit is 1 else `(1 - point_k)`"
with the top variable selecting the half. -/
def chis {F : Type} [Field F] : List F → List F
  | [] => [1]
  | x :: rest =>
    (chis rest).map (fun c => (1 - x) * c) ++ (chis rest).map (fun c => x * c)

/-- Inner product of two coefficient lists. -/
def dot {F : Type} [Field F] (xs ys : List F) : F :=
  (List.zipWith (fun a b => a * b) xs ys).sum

/-- Modelled from the spec: `Evaluate(points)` checks the point length
against `num_vars` (failing with `DimensionMismatch`) and computes the
multilinear-extension value by the closed-form weighted sum over hypercube
vertices. -/
def evaluate {F : Type} [Field F] (p : DensePolynomial F) (point : List F) :
    Except PolyError F :=
  if point.length = p.num_vars then
    Except.ok (dot (chis point) p.Z)
  else
    Except.error PolyError.DimensionMismatch

/-- Repeatedly bind the top variable, one coordinate at a time, in order. -/
def bindChain {F : Type} [Field F] :
    DensePolynomial F → List F → Except PolyError (DensePolynomial F)
  | p, [] => Except.ok p
  | p, r :: rest =>
    match bound_poly_var_top p r with
    | Except.ok q => bindChain q rest
    | Except.error e => Except.error e

/-- Modelled from the spec: `Evaluate` "does not mutate the original
polynomial (operates on a transient copy)".  The state-passing variant makes
the frame effect explicit: the binding chain runs on a transient copy and the
polynomial handed back to the caller is the original one. -/
def evaluateTracked {F : Type} [Field F] (p : DensePolynomial F)
    (point : List F) : Except PolyError (F × DensePolynomial F) :=
  if point.length = p.num_vars then
    match bindChain p point with
    | Except.ok q => Except.ok (q.Z.headD 0, p)
    | Except.error e => Except.error e
  else
    Except.error PolyError.DimensionMismatch

/-! ## Variable-base MSM engine

The commitment group is modelled as an additive commutative group `G`
(the elliptic-curve group law); the affine/projective distinction is a
representation detail that collapses in the model.  Scalars are the
canonical integer representatives of field elements, modelled as `Nat`. -/

/-- Error taxonomy of the MSM engine. -/
inductive MSMError where
  | LengthMismatch
  deriving DecidableEq

/-- Naive double-and-add scalar multiplication, the spec's oracle:
scan the scalar bits from least significant, adding the running base on a
set bit and doubling the base each step. -/
def doubleAndAdd {G : Type} [AddCommGroup G] (g : G) (s : Nat) : G :=
  if h : s = 0 then 0
  else (if s % 2 = 1 then g else 0) + doubleAndAdd (g + g) (s / 2)
termination_by s
decreasing_by exact Nat.div_lt_self (Nat.pos_of_ne_zero h) (by omega)

/-- The naive linear combination `Σ scalars[i] * bases[i]`, computed by
repeated double-and-add. -/
def naiveMsm {G : Type} [AddCommGroup G] : List (G × Nat) → G
  | [] => 0
  | p :: ps => doubleAndAdd p.1 p.2 + naiveMsm ps

/-- The `j`-th window digit (width `w`) of the binary representation of a
scalar. -/
def digit (w j s : Nat) : Nat := s / 2 ^ (w * j) % 2 ^ w

/-- Weighted bucket sum: `Σ (k + index) • bucket[index]`, started at weight
`k`.  `weightedSumFrom 0 buckets` is the spec's "sum the buckets (weighted by
bucket index)". -/
def weightedSumFrom {G : Type} [AddCommGroup G] : Nat → List G → G
  | _, [] => 0
  | k, g :: gs => k • g + weightedSumFrom (k + 1) gs

/-- Modelled from the spec: accumulate each base into one of the `2 ^ w`
buckets keyed by the `j`-th window digit of its scalar. -/
def accumBuckets {G : Type} [AddCommGroup G] (w j : Nat) :
    List (G × Nat) → List G → List G
  | [], bks => bks
  | p :: ps, bks =>
    accumBuckets w j ps
      (bks.set (digit w j p.2) (bks.getD (digit w j p.2) 0 + p.1))

/-- Per-window result: bucket accumulation over an initially empty bucket
array followed by the index-weighted bucket sum. -/
def windowSum {G : Type} [AddCommGroup G] (w j : Nat) (ps : List (G × Nat)) : G :=
  weightedSumFrom 0 (accumBuckets w j ps (List.replicate (2 ^ w) 0))

/-- `n`-fold doubling: `doubleTimes n g = 2 ^ n • g` computed by repeated
point doubling. -/
def doubleTimes {G : Type} [AddCommGroup G] : Nat → G → G
  | 0, g => g
  | n + 1, g => doubleTimes n (g + g)

/-- Horner combination of the per-window results, most significant window
first: the accumulator is doubled `w` times before each window result is
added. -/
def hornerCombine {G : Type} [AddCommGroup G] (w : Nat) (ws : List G) : G :=
  ws.foldl (fun acc x => doubleTimes w acc + x) 0

/-- Modelled from the spec: windowed bucket MSM over `m` windows of width
`w` — per-window bucket accumulation and weighted bucket sums, combined
across window positions by repeated doubling, most significant first. -/
def msmWindowed {G : Type} [AddCommGroup G] (w m : Nat) (ps : List (G × Nat)) : G :=
  hornerCombine w (((List.range m).reverse).map (fun j => windowSum w j ps))

/-- Number of windows needed: the largest bit size among the scalars (window
width times this count always covers every scalar). -/
def maxSize (scalars : List Nat) : Nat :=
  scalars.foldr (fun s acc => max s.size acc) 0

/-- Modelled from the spec: `Compute(bases, scalars)` (Rust name
`VariableBaseMSM::msm`) fails with `LengthMismatch` when the input lengths
differ and otherwise runs the windowed bucket algorithm with window width
`w`, with enough windows to cover every scalar. -/
def msm {G : Type} [AddCommGroup G] (w : Nat) (bases : List G)
    (scalars : List Nat) : Except MSMError G :=
  if bases.length = scalars.length then
    Except.ok (msmWindowed w (maxSize scalars) (bases.zip scalars))
  else
    Except.error MSMError.LengthMismatch

/-- Direct per-window digit combination `Σ digit_j(s_i) • base_i`; proved
equal to the bucket-based `windowSum`. -/
def digitMsm {G : Type} [AddCommGroup G] (w j : Nat) : List (G × Nat) → G
  | [] => 0
  | p :: ps => digit w j p.2 • p.1 + digitMsm w j ps

/-! ## Toolchain helpers (`src/host/toolchain.rs`) -/

/-- `DOWNLOAD_RETRIES` from `toolchain.rs`. -/
def DOWNLOAD_RETRIES : Nat := 5

/-- `DELAY_BASE_MS` from `toolchain.rs`. -/
def DELAY_BASE_MS : Nat := 500

/-- The error produced by `retry_times` after exhausting all attempts:
`eyre!("Failed after {} retries", times)`. -/
def retryMsg (times : Nat) : String :=
  "Failed after " ++ toString times ++ " retries"

/-- The `for i in 0..times` loop of `retry_times`: `fuel` is the number of
attempts left and `i` the current attempt index.  The second component of
the result counts how many times `f` was invoked. -/
def retryLoop {α : Type} (f : Nat → Except String α) (times : Nat) :
    Nat → Nat → Except String α × Nat
  | 0, i => (Except.error (retryMsg times), i)
  | fuel + 1, i =>
    match f i with
    | Except.ok t => (Except.ok t, i + 1)
    | Except.error _ => retryLoop f times fuel (i + 1)

/-- `retry_times` from `toolchain.rs`: run `f` up to `times` times,
returning the first `Ok` immediately; the sleeping between attempts
(`base_ms`) has no effect on the result.  The second component of the result
is the number of invocations of `f`. -/
def retry_times {α : Type} (times : Nat) (_base_ms : Nat)
    (f : Nat → Except String α) : Except String α × Nat :=
  retryLoop f times times 0

/-- `delay_timeout` from `toolchain.rs`:
`2u64.pow(i as u32) * base_ms` with u64 wrapping, then `random % timeout`
(`r` models the value drawn from `rand::random::<u64>()`).  A zero divisor
makes `%` panic, modelled as `none`. -/
def delay_timeout (i base_ms r : Nat) : Option Nat :=
  let timeout := (2 ^ i % 2 ^ 64) * base_ms % 2 ^ 64
  if timeout = 0 then none else some (r % timeout)

/-- The externally observable actions of `install_toolchain`. -/
inductive ToolchainAction where
  | downloadAttempt
  | unpack
  | writeTag
  | link
  deriving DecidableEq

/-- `has_toolchain` from `toolchain.rs`: the tag file is readable
(`tagFileContent = some tag`) and its content equals the compiled-in
toolchain tag. -/
def has_toolchain (toolchainTag : String) (tagFileContent : Option String) :
    Bool :=
  match tagFileContent with
  | some tag => tag == toolchainTag
  | none => false

/-- The action trace of `install_toolchain` from `toolchain.rs`: when the
toolchain is already present only `rustup` linking happens; otherwise the
download attempts (abstracted as `downloadActions`), the archive unpacking
and the tag-file write precede the linking. -/
def install_toolchain_trace (toolchainTag : String)
    (tagFileContent : Option String)
    (downloadActions : List ToolchainAction) : List ToolchainAction :=
  if has_toolchain toolchainTag tagFileContent then
    [ToolchainAction.link]
  else
    downloadActions ++
      [ToolchainAction.unpack, ToolchainAction.writeTag, ToolchainAction.link]

/-! ## List and arithmetic helper lemmas -/

theorem getD_zipWith {α β γ : Type} (f : α → β → γ) (da : α) (db : β) (dc : γ) :
    ∀ (xs : List α) (ys : List β) (i : Nat), i < xs.length → i < ys.length →
      (List.zipWith f xs ys).getD i dc = f (xs.getD i da) (ys.getD i db) := by
  intro xs
  induction xs with
  | nil => intro ys i h1 _; simp at h1
  | cons x xs ih =>
    intro ys i h1 h2
    cases ys with
    | nil => simp at h2
    | cons y ys =>
      cases i with
      | zero => simp
      | succ i =>
        simp only [List.zipWith_cons_cons, List.getD_cons_succ]
        exact ih ys i (by simpa using h1) (by simpa using h2)

theorem chis_length {F : Type} [Field F] :
    ∀ (point : List F), (chis point).length = 2 ^ point.length := by
  intro point
  induction point with
  | nil => rfl
  | cons x rest ih =>
    simp only [chis, List.length_append, List.length_map, ih, List.length_cons]
    rw [pow_succ]
    omega

@[simp] theorem dot_nil_left {F : Type} [Field F] (ys : List F) : dot [] ys = 0 := rfl

@[simp] theorem dot_nil_right {F : Type} [Field F] (xs : List F) : dot xs [] = 0 := by
  cases xs <;> rfl

@[simp] theorem dot_cons {F : Type} [Field F] (x y : F) (xs ys : List F) :
    dot (x :: xs) (y :: ys) = x * y + dot xs ys := by
  simp [dot]

theorem dot_append {F : Type} [Field F] (as bs cs ds : List F)
    (h : as.length = cs.length) :
    dot (as ++ bs) (cs ++ ds) = dot as cs + dot bs ds := by
  unfold dot
  rw [List.zipWith_append _ _ _ _ _ h, List.sum_append]

theorem dot_map_mul_left {F : Type} [Field F] (x : F) :
    ∀ (xs ys : List F), dot (xs.map (fun c => x * c)) ys = x * dot xs ys := by
  intro xs
  induction xs with
  | nil => intro ys; simp
  | cons c t ih =>
    intro ys
    cases ys with
    | nil => simp
    | cons y ys =>
      simp only [List.map_cons, dot_cons, ih]
      ring

theorem dot_interp {F : Type} [Field F] (r : F) :
    ∀ (C low high : List F), low.length = high.length →
      dot C (List.zipWith (fun a b => a + r * (b - a)) low high) =
        (1 - r) * dot C low + r * dot C high := by
  intro C
  induction C with
  | nil => intro low high _; simp
  | cons c t ih =>
    intro low high h
    cases low with
    | nil =>
      cases high with
      | nil => simp
      | cons b tb => simp at h
    | cons a ta =>
      cases high with
      | nil => simp at h
      | cons b tb =>
        simp only [List.zipWith_cons_cons, dot_cons]
        rw [ih ta tb (by simpa using h)]
        ring

theorem log2Aux_pow : ∀ (k fuel : Nat), 2 ^ k ≤ fuel → log2Aux fuel (2 ^ k) = k := by
  intro k
  induction k with
  | zero =>
    intro fuel h
    simp only [pow_zero] at h ⊢
    cases fuel with
    | zero => omega
    | succ f => rfl
  | succ k ih =>
    intro fuel h
    have hpos : 0 < 2 ^ k := pow_pos (by omega) k
    have h2 : 2 ≤ 2 ^ (k + 1) := by rw [pow_succ]; omega
    obtain ⟨n, hn⟩ : ∃ n, 2 ^ (k + 1) = n + 2 := ⟨2 ^ (k + 1) - 2, by omega⟩
    obtain ⟨f, hf⟩ : ∃ f, fuel = f + 1 := ⟨fuel - 1, by omega⟩
    rw [hn, hf]
    show log2Aux f ((n + 2) / 2) + 1 = k + 1
    have hdiv : (n + 2) / 2 = 2 ^ k := by
      rw [← hn, pow_succ]
      exact Nat.mul_div_cancel _ (by omega)
    rw [hdiv]
    have hle : 2 ^ k ≤ f := by
      have hk : 2 ^ k < 2 ^ (k + 1) := by rw [pow_succ]; omega
      omega
    rw [ih f hle]

theorem num_vars_of_pow (k : Nat) : num_vars_of (2 ^ k) = k :=
  log2Aux_pow k (2 ^ k) (le_refl _)

/-- Central lemma: on a shape-correct polynomial, binding every coordinate of
a point in order succeeds, ends with a single table entry, and that entry is
the closed-form weighted sum used by `evaluate`. -/
theorem bindChain_spec {F : Type} [Field F] :
    ∀ (point : List F) (p : DensePolynomial F),
      p.num_vars = point.length → p.Z.length = 2 ^ point.length →
      ∃ v, bindChain p point = Except.ok ⟨0, [v]⟩ ∧ dot (chis point) p.Z = v := by
  intro point
  induction point with
  | nil =>
    intro p hn hz
    obtain ⟨nv, Z⟩ := p
    simp only [List.length_nil, pow_zero] at hn hz
    obtain ⟨v, hv⟩ := List.length_eq_one.mp hz
    subst hn
    subst hv
    refine ⟨v, rfl, ?_⟩
    simp [chis]
  | cons x rest ih =>
    intro p hn hz
    simp only [List.length_cons] at hn hz
    have hnz : p.num_vars ≠ 0 := by omega
    have hpos : 0 < 2 ^ rest.length := pow_pos (by omega) rest.length
    have hhalf : p.Z.length / 2 = 2 ^ rest.length := by
      rw [hz, pow_succ]
      exact Nat.mul_div_cancel _ (by omega)
    set L := p.Z.take (p.Z.length / 2) with hL
    set H := p.Z.drop (p.Z.length / 2) with hH
    have hlow : L.length = 2 ^ rest.length := by
      rw [hL, List.length_take, hhalf, hz, pow_succ]
      omega
    have hhigh : H.length = 2 ^ rest.length := by
      rw [hH, List.length_drop, hhalf, hz, pow_succ]
      omega
    have hb : bound_poly_var_top p x =
        Except.ok ⟨p.num_vars - 1, List.zipWith (fun a b => a + x * (b - a)) L H⟩ := by
      unfold bound_poly_var_top
      rw [if_neg hnz]
    obtain ⟨v, hv1, hv2⟩ := ih ⟨p.num_vars - 1, List.zipWith (fun a b => a + x * (b - a)) L H⟩
      (by simp; omega)
      (by simp [List.length_zipWith, hlow, hhigh])
    refine ⟨v, ?_, ?_⟩
    · simp only [bindChain, hb]
      exact hv1
    · have hsplit : p.Z = L ++ H := (List.take_append_drop _ _).symm
      rw [show chis (x :: rest) =
        (chis rest).map (fun c => (1 - x) * c) ++ (chis rest).map (fun c => x * c) from rfl]
      rw [hsplit]
      rw [dot_append _ _ _ _ (by rw [List.length_map, chis_length, hlow])]
      rw [dot_map_mul_left, dot_map_mul_left]
      rw [← dot_interp x (chis rest) L H (by rw [hlow, hhigh])]
      exact hv2

/-! ## Claims about the polynomial engine -/

/-- C1: for a polynomial whose table has length `2 ^ n` with `n ≥ 1` and any
field element `r`, `bound_poly_var_top` succeeds and produces a table of half
the length whose entry `i` is `low[i] + r * (high[i] - low[i])` (where `low`
and `high` are the two halves of the old table), decrementing `num_vars` by
exactly one. -/
theorem bound_poly_var_top_halves {F : Type} [Field F] (p : DensePolynomial F)
    (r : F) (hlen : p.Z.length = 2 ^ p.num_vars) (hn : 1 ≤ p.num_vars) :
    ∃ q, bound_poly_var_top p r = Except.ok q ∧
      q.num_vars + 1 = p.num_vars ∧
      q.Z.length = p.Z.length / 2 ∧
      ∀ i, i < q.Z.length →
        q.Z.getD i 0 =
          (p.Z.take (p.Z.length / 2)).getD i 0 +
            r * ((p.Z.drop (p.Z.length / 2)).getD i 0 -
              (p.Z.take (p.Z.length / 2)).getD i 0) := by
  have hnz : p.num_vars ≠ 0 := by omega
  obtain ⟨k, hk⟩ : ∃ k, p.num_vars = k + 1 := ⟨p.num_vars - 1, by omega⟩
  have hpos : 0 < 2 ^ k := pow_pos (by omega) k
  have hhalf : p.Z.length / 2 = 2 ^ k := by
    rw [hlen, hk, pow_succ]
    exact Nat.mul_div_cancel _ (by omega)
  have hlow : (p.Z.take (p.Z.length / 2)).length = 2 ^ k := by
    rw [List.length_take, hhalf, hlen, hk, pow_succ]
    omega
  have hhigh : (p.Z.drop (p.Z.length / 2)).length = 2 ^ k := by
    rw [List.length_drop, hhalf, hlen, hk, pow_succ]
    omega
  refine ⟨⟨p.num_vars - 1, List.zipWith (fun a b => a + r * (b - a))
    (p.Z.take (p.Z.length / 2)) (p.Z.drop (p.Z.length / 2))⟩, ?_, ?_, ?_, ?_⟩
  · unfold bound_poly_var_top
    rw [if_neg hnz]
  · simp
    omega
  · rw [List.length_zipWith, hlow, hhigh, hhalf]
    exact Nat.min_self _
  · intro i hi
    have hiz : i < 2 ^ k := by
      simpa [List.length_zipWith, hlow, hhigh] using hi
    exact getD_zipWith _ 0 0 0 _ _ i (by omega) (by omega)

theorem bound_poly_var_top_halves_witness :
    ∃ q, bound_poly_var_top (⟨2, [1, 2, 3, 4]⟩ : DensePolynomial ℚ) 5 = Except.ok q ∧
      q.num_vars + 1 = (⟨2, [1, 2, 3, 4]⟩ : DensePolynomial ℚ).num_vars ∧
      q.Z.length = (⟨2, [1, 2, 3, 4]⟩ : DensePolynomial ℚ).Z.length / 2 ∧
      ∀ i, i < q.Z.length →
        q.Z.getD i 0 =
          ((⟨2, [1, 2, 3, 4]⟩ : DensePolynomial ℚ).Z.take
              ((⟨2, [1, 2, 3, 4]⟩ : DensePolynomial ℚ).Z.length / 2)).getD i 0 +
            5 * (((⟨2, [1, 2, 3, 4]⟩ : DensePolynomial ℚ).Z.drop
                ((⟨2, [1, 2, 3, 4]⟩ : DensePolynomial ℚ).Z.length / 2)).getD i 0 -
              ((⟨2, [1, 2, 3, 4]⟩ : DensePolynomial ℚ).Z.take
                ((⟨2, [1, 2, 3, 4]⟩ : DensePolynomial ℚ).Z.length / 2)).getD i 0) :=
  bound_poly_var_top_halves (⟨2, [1, 2, 3, 4]⟩ : DensePolynomial ℚ) 5
    (by decide) (by decide)

/-- C5: binding a polynomial with zero variables fails with the typed error
`NoVariablesRemaining`, surfaced to the caller. -/
theorem bound_poly_var_top_no_vars {F : Type} [Field F] (p : DensePolynomial F)
    (r : F) (h : p.num_vars = 0) :
    bound_poly_var_top p r = Except.error PolyError.NoVariablesRemaining := by
  unfold bound_poly_var_top
  rw [if_pos h]

theorem bound_poly_var_top_no_vars_witness :
    bound_poly_var_top (⟨0, [3]⟩ : DensePolynomial ℚ) 7 =
      Except.error PolyError.NoVariablesRemaining :=
  bound_poly_var_top_no_vars (⟨0, [3]⟩ : DensePolynomial ℚ) 7 rfl

/-- C3: for a polynomial constructed from a table of length `2 ^ n` and a
point of exactly `n` field elements, `evaluate` returns the same value as
binding the top variable once per coordinate, in order, on a fresh copy and
reading the single remaining table entry. -/
theorem evaluate_eq_bindChain {F : Type} [Field F] (evals point : List F)
    (p : DensePolynomial F) (hnew : DensePolynomial.new evals = Except.ok p)
    (hlen : evals.length = 2 ^ point.length) :
    ∃ v, bindChain p point = Except.ok ⟨0, [v]⟩ ∧
      evaluate p point = Except.ok v := by
  unfold DensePolynomial.new at hnew
  by_cases hpow : isPow2 evals.length = true
  · rw [if_pos hpow] at hnew
    have hp : p = ⟨num_vars_of evals.length, evals⟩ := by
      injection hnew with h
      exact h.symm
    subst hp
    have hnv : num_vars_of evals.length = point.length := by
      rw [hlen]
      exact num_vars_of_pow point.length
    obtain ⟨v, h1, h2⟩ :=
      bindChain_spec point ⟨num_vars_of evals.length, evals⟩ hnv hlen
    refine ⟨v, h1, ?_⟩
    unfold evaluate
    rw [if_pos (by simpa using hnv.symm), h2]
  · rw [if_neg hpow] at hnew
    exact absurd hnew (by simp)

theorem evaluate_eq_bindChain_witness :
    ∃ v, bindChain (⟨2, [1, 2, 3, 4]⟩ : DensePolynomial ℚ) [5, 0] =
        Except.ok ⟨0, [v]⟩ ∧
      evaluate (⟨2, [1, 2, 3, 4]⟩ : DensePolynomial ℚ) [5, 0] = Except.ok v :=
  evaluate_eq_bindChain [1, 2, 3, 4] [5, 0] ⟨2, [1, 2, 3, 4]⟩ (by rfl) rfl

/-- C6: for a shape-correct polynomial and a point of length `num_vars`,
`evaluate` leaves the polynomial unchanged: the state-passing variant hands
back exactly the original polynomial together with the evaluation result. -/
theorem evaluate_frame {F : Type} [Field F] (p : DensePolynomial F)
    (point : List F) (hpt : point.length = p.num_vars)
    (hshape : p.Z.length = 2 ^ p.num_vars) :
    ∃ v, evaluateTracked p point = Except.ok (v, p) ∧
      evaluate p point = Except.ok v := by
  obtain ⟨v, h1, h2⟩ := bindChain_spec point p hpt.symm (by rw [hshape, hpt])
  refine ⟨v, ?_, ?_⟩
  · unfold evaluateTracked
    rw [if_pos hpt, h1]
    rfl
  · unfold evaluate
    rw [if_pos hpt, h2]

theorem evaluate_frame_witness :
    ∃ v, evaluateTracked (⟨2, [1, 2, 3, 4]⟩ : DensePolynomial ℚ) [5, 0] =
        Except.ok (v, (⟨2, [1, 2, 3, 4]⟩ : DensePolynomial ℚ)) ∧
      evaluate (⟨2, [1, 2, 3, 4]⟩ : DensePolynomial ℚ) [5, 0] = Except.ok v :=
  evaluate_frame (⟨2, [1, 2, 3, 4]⟩ : DensePolynomial ℚ) [5, 0] rfl rfl

/-! ## MSM engine lemmas -/

theorem sum_map_add {ι G : Type} [AddCommGroup G] (l : List ι) (f g : ι → G) :
    (l.map (fun i => f i + g i)).sum = (l.map f).sum + (l.map g).sum := by
  induction l with
  | nil => simp
  | cons a t ih =>
    simp only [List.map_cons, List.sum_cons, ih]
    abel

theorem sum_map_nsmul_const {ι G : Type} [AddCommGroup G] (l : List ι)
    (c : ι → Nat) (b : G) :
    (l.map (fun i => c i • b)).sum = ((l.map c).sum) • b := by
  induction l with
  | nil => simp
  | cons a t ih =>
    simp only [List.map_cons, List.sum_cons, ih, add_smul]

theorem doubleTimes_eq {G : Type} [AddCommGroup G] :
    ∀ (n : Nat) (g : G), doubleTimes n g = 2 ^ n • g := by
  intro n
  induction n with
  | zero => intro g; simp [doubleTimes]
  | succ n ih =>
    intro g
    show doubleTimes n (g + g) = 2 ^ (n + 1) • g
    rw [ih (g + g), show g + g = (2 : ℕ) • g from (two_smul ℕ g).symm,
      smul_smul, pow_succ]

theorem doubleAndAdd_eq {G : Type} [AddCommGroup G] :
    ∀ (s : Nat) (g : G), doubleAndAdd g s = s • g := by
  intro s
  induction s using Nat.strong_induction_on with
  | _ s ih =>
    intro g
    by_cases hs : s = 0
    · subst hs
      rw [doubleAndAdd]
      simp
    · rw [doubleAndAdd, dif_neg hs,
        ih (s / 2) (Nat.div_lt_self (Nat.pos_of_ne_zero hs) (by omega)) (g + g),
        show g + g = (2 : ℕ) • g from (two_smul ℕ g).symm, smul_smul]
      rcases Nat.mod_two_eq_zero_or_one s with h | h
      · rw [if_neg (by omega)]
        rw [zero_add, Nat.div_mul_cancel (Nat.dvd_of_mod_eq_zero h)]
      · rw [if_pos h]
        have hs2 : s = s / 2 * 2 + 1 := by omega
        conv_rhs => rw [hs2]
        rw [add_smul, one_smul, add_comm]

theorem weightedSumFrom_set {G : Type} [AddCommGroup G] :
    ∀ (bks : List G) (k d : Nat) (b : G), d < bks.length →
      weightedSumFrom k (bks.set d (bks.getD d 0 + b)) =
        weightedSumFrom k bks + (k + d) • b := by
  intro bks
  induction bks with
  | nil => intro k d b hd; simp at hd
  | cons g t ih =>
    intro k d b hd
    cases d with
    | zero =>
      simp only [List.getD_cons_zero, List.set_cons_zero, weightedSumFrom,
        Nat.add_zero]
      rw [smul_add]
      abel
    | succ d =>
      simp only [List.getD_cons_succ, List.set_cons_succ, weightedSumFrom]
      rw [ih (k + 1) d b (by simpa using hd)]
      have : k + 1 + d = k + (d + 1) := by omega
      rw [this]
      abel

theorem weightedSumFrom_replicate {G : Type} [AddCommGroup G] :
    ∀ (n k : Nat), weightedSumFrom k (List.replicate n (0 : G)) = 0 := by
  intro n
  induction n with
  | zero => intro k; rfl
  | succ n ih =>
    intro k
    rw [List.replicate_succ]
    show k • (0 : G) + weightedSumFrom (k + 1) (List.replicate n (0 : G)) = 0
    rw [smul_zero, zero_add, ih]

theorem accumBuckets_sum {G : Type} [AddCommGroup G] (w j : Nat) :
    ∀ (ps : List (G × Nat)) (bks : List G), bks.length = 2 ^ w →
      weightedSumFrom 0 (accumBuckets w j ps bks) =
        weightedSumFrom 0 bks + digitMsm w j ps := by
  intro ps
  induction ps with
  | nil => intro bks _; simp [accumBuckets, digitMsm]
  | cons p t ih =>
    intro bks h
    have hd : digit w j p.2 < bks.length := by
      rw [h]
      exact Nat.mod_lt _ (pow_pos (by omega) w)
    show weightedSumFrom 0 (accumBuckets w j t
        (bks.set (digit w j p.2) (bks.getD (digit w j p.2) 0 + p.1))) = _
    rw [ih _ (by rw [List.length_set]; exact h)]
    rw [weightedSumFrom_set bks 0 (digit w j p.2) p.1 hd]
    show _ = weightedSumFrom 0 bks + (digit w j p.2 • p.1 + digitMsm w j t)
    rw [zero_add]
    abel

theorem windowSum_eq_digitMsm {G : Type} [AddCommGroup G] (w j : Nat)
    (ps : List (G × Nat)) : windowSum w j ps = digitMsm w j ps := by
  unfold windowSum
  rw [accumBuckets_sum w j ps _ (List.length_replicate _ _),
    weightedSumFrom_replicate, zero_add]

theorem digitMsm_append {G : Type} [AddCommGroup G] (w j : Nat) :
    ∀ (l1 l2 : List (G × Nat)),
      digitMsm w j (l1 ++ l2) = digitMsm w j l1 + digitMsm w j l2 := by
  intro l1 l2
  induction l1 with
  | nil => simp [digitMsm]
  | cons p t ih =>
    show digit w j p.2 • p.1 + digitMsm w j (t ++ l2) = _
    rw [ih]
    show _ = digit w j p.2 • p.1 + digitMsm w j t + digitMsm w j l2
    abel

theorem hornerFold_eq {G : Type} [AddCommGroup G] (w : Nat) (Wf : Nat → G) :
    ∀ (m : Nat) (a : G),
      List.foldl (fun acc x => doubleTimes w acc + x) a
          (((List.range m).reverse).map Wf) =
        2 ^ (w * m) • a + ((List.range m).map (fun j => 2 ^ (w * j) • Wf j)).sum := by
  intro m
  induction m with
  | zero => intro a; simp
  | succ m ih =>
    intro a
    rw [List.range_succ, List.reverse_append]
    simp only [List.reverse_cons, List.reverse_nil, List.nil_append,
      List.cons_append, List.map_cons, List.foldl_cons]
    rw [ih (doubleTimes w a + Wf m), doubleTimes_eq]
    rw [List.map_append, List.sum_append]
    simp only [List.map_cons, List.map_nil, List.sum_cons, List.sum_nil]
    rw [smul_add, smul_smul, ← pow_add]
    have hmul : w * m + w = w * (m + 1) := by ring
    rw [hmul]
    abel

theorem sum_pow_digit (w : Nat) :
    ∀ (m s : Nat), s < 2 ^ (w * m) →
      ((List.range m).map (fun j => 2 ^ (w * j) * digit w j s)).sum = s := by
  intro m
  induction m with
  | zero =>
    intro s h
    rw [Nat.mul_zero, pow_zero] at h
    simp only [List.range_zero, List.map_nil, List.sum_nil]
    omega
  | succ m ih =>
    intro s h
    rw [List.range_succ_eq_map, List.map_cons, List.sum_cons, List.map_map]
    have hpos : 0 < 2 ^ w := pow_pos (by omega) w
    have htail : ((List.range m).map ((fun j => 2 ^ (w * j) * digit w j s) ∘ Nat.succ)).sum
        = 2 ^ w * ((List.range m).map (fun j => 2 ^ (w * j) * digit w j (s / 2 ^ w))).sum := by
      rw [← List.sum_map_mul_left]
      apply congrArg
      apply List.map_congr_left
      intro j _
      show 2 ^ (w * (j + 1)) * digit w (j + 1) s = 2 ^ w * (2 ^ (w * j) * digit w j (s / 2 ^ w))
      unfold digit
      have h1 : w * (j + 1) = w + w * j := by ring
      rw [h1, pow_add, Nat.div_div_eq_div_mul]
      ring
    rw [htail]
    have hdivlt : s / 2 ^ w < 2 ^ (w * m) := by
      rw [Nat.div_lt_iff_lt_mul hpos]
      have h2 : w * (m + 1) = w * m + w := by ring
      rw [h2, pow_add] at h
      exact h
    rw [ih (s / 2 ^ w) hdivlt]
    show 2 ^ (w * 0) * digit w 0 s + 2 ^ w * (s / 2 ^ w) = s
    unfold digit
    rw [Nat.mul_zero, pow_zero, Nat.div_one, one_mul]
    exact Nat.mod_add_div s (2 ^ w)

theorem rangeSum_digitMsm {G : Type} [AddCommGroup G] (w m : Nat) :
    ∀ (ps : List (G × Nat)), (∀ p ∈ ps, p.2 < 2 ^ (w * m)) →
      ((List.range m).map (fun j => 2 ^ (w * j) • digitMsm w j ps)).sum =
        naiveMsm ps := by
  intro ps
  induction ps with
  | nil =>
    intro _
    simp [digitMsm, naiveMsm]
  | cons p t ih =>
    intro h
    have hhead :
        ((List.range m).map (fun j => 2 ^ (w * j) • digitMsm w j (p :: t))).sum =
        ((List.range m).map (fun j => (2 ^ (w * j) * digit w j p.2) • p.1)).sum +
          ((List.range m).map (fun j => 2 ^ (w * j) • digitMsm w j t)).sum := by
      rw [← sum_map_add]
      apply congrArg
      apply List.map_congr_left
      intro j _
      show 2 ^ (w * j) • digitMsm w j (p :: t) = _
      rw [show digitMsm w j (p :: t) = digit w j p.2 • p.1 + digitMsm w j t from rfl]
      rw [smul_add, smul_smul]
    rw [hhead]
    rw [sum_map_nsmul_const _ (fun j => 2 ^ (w * j) * digit w j p.2) p.1]
    rw [sum_pow_digit w m p.2 (h p (List.mem_cons_self _ _))]
    rw [ih (fun q hq => h q (List.mem_cons_of_mem _ hq))]
    show p.2 • p.1 + naiveMsm t = naiveMsm (p :: t)
    rw [show naiveMsm (p :: t) = doubleAndAdd p.1 p.2 + naiveMsm t from rfl,
      doubleAndAdd_eq]

/-- Core MSM correctness: the windowed bucket algorithm with any window
width `w` and any window count `m` covering every scalar agrees with the
naive double-and-add linear combination. -/
theorem msmWindowed_eq_naiveMsm {G : Type} [AddCommGroup G] (w m : Nat)
    (ps : List (G × Nat)) (hcov : ∀ p ∈ ps, p.2 < 2 ^ (w * m)) :
    msmWindowed w m ps = naiveMsm ps := by
  unfold msmWindowed hornerCombine
  rw [List.map_congr_left (fun j _ => windowSum_eq_digitMsm w j ps)]
  rw [hornerFold_eq w (fun j => digitMsm w j ps) m 0]
  rw [smul_zero, zero_add]
  exact rangeSum_digitMsm w m ps hcov

theorem size_le_maxSize :
    ∀ (scalars : List Nat) (s : Nat), s ∈ scalars → s.size ≤ maxSize scalars := by
  intro scalars
  induction scalars with
  | nil => intro s h; simp at h
  | cons x t ih =>
    intro s h
    show s.size ≤ max x.size (maxSize t)
    rcases List.mem_cons.mp h with h | h
    · subst h
      exact le_max_left _ _
    · exact le_trans (ih s h) (le_max_right _ _)

/-! ## Claims about the MSM engine -/

/-- C2: for equal-length bases and scalars and every window width `w ≥ 1`,
`msm` returns exactly the naive double-and-add linear combination
`Σ scalars[i] * bases[i]`. -/
theorem msm_eq_naiveMsm {G : Type} [AddCommGroup G] (w : Nat) (bases : List G)
    (scalars : List Nat) (hlen : bases.length = scalars.length) (hw : 1 ≤ w) :
    msm w bases scalars = Except.ok (naiveMsm (bases.zip scalars)) := by
  unfold msm
  rw [if_pos hlen]
  apply congrArg
  apply msmWindowed_eq_naiveMsm
  intro p hp
  have hmem : p.2 ∈ scalars := (List.of_mem_zip hp).2
  have h1 : p.2.size ≤ maxSize scalars := size_le_maxSize scalars p.2 hmem
  have h2 : maxSize scalars ≤ w * maxSize scalars :=
    Nat.le_mul_of_pos_left _ (by omega)
  exact Nat.size_le.mp (le_trans h1 h2)

theorem msm_eq_naiveMsm_witness :
    msm 2 [(5 : ℤ), -3, 7] [2, 3, 0] =
      Except.ok (naiveMsm ([(5 : ℤ), -3, 7].zip [2, 3, 0])) :=
  msm_eq_naiveMsm 2 [(5 : ℤ), -3, 7] [2, 3, 0] rfl (by omega)

/-- C4: `msm` with mismatched input lengths fails with `LengthMismatch`,
and with empty inputs returns the group identity. -/
theorem msm_mismatch_and_empty {G : Type} [AddCommGroup G] (w : Nat)
    (bases : List G) (scalars : List Nat)
    (h : bases.length ≠ scalars.length) :
    msm w bases scalars = Except.error MSMError.LengthMismatch ∧
      msm w ([] : List G) ([] : List Nat) = Except.ok 0 := by
  constructor
  · unfold msm
    rw [if_neg h]
  · rfl

theorem msm_mismatch_and_empty_witness :
    msm 3 [(1 : ℤ)] [] = Except.error MSMError.LengthMismatch ∧
      msm 3 ([] : List ℤ) ([] : List Nat) = Except.ok 0 :=
  msm_mismatch_and_empty 3 [(1 : ℤ)] [] (by decide)

/-! ## Parallel chunking lemmas -/

theorem zipWith_flatten_chunks {α β γ : Type} (f : α → β → γ) :
    ∀ (chunks : List (List α × List β)),
      (∀ c ∈ chunks, c.1.length = c.2.length) →
      (chunks.map (fun c => List.zipWith f c.1 c.2)).flatten =
        List.zipWith f (chunks.map Prod.fst).flatten
          (chunks.map Prod.snd).flatten := by
  intro chunks
  induction chunks with
  | nil => intro _; simp
  | cons c t ih =>
    intro h
    simp only [List.map_cons, List.flatten_cons]
    rw [List.zipWith_append _ _ _ _ _ (h c (List.mem_cons_self _ _))]
    rw [ih (fun d hd => h d (List.mem_cons_of_mem _ hd))]

theorem dot_chunks {F : Type} [Field F] :
    ∀ (chunks : List (List F × List F)),
      (∀ c ∈ chunks, c.1.length = c.2.length) →
      (chunks.map (fun c => dot c.1 c.2)).sum =
        dot (chunks.map Prod.fst).flatten (chunks.map Prod.snd).flatten := by
  intro chunks
  induction chunks with
  | nil => intro _; simp
  | cons c t ih =>
    intro h
    simp only [List.map_cons, List.sum_cons, List.flatten_cons]
    rw [dot_append _ _ _ _ (h c (List.mem_cons_self _ _))]
    rw [ih (fun d hd => h d (List.mem_cons_of_mem _ hd))]

theorem digitMsm_flatten {G : Type} [AddCommGroup G] (w j : Nat) :
    ∀ (chunks : List (List (G × Nat))),
      (chunks.map (fun c => digitMsm w j c)).sum = digitMsm w j chunks.flatten := by
  intro chunks
  induction chunks with
  | nil => simp [digitMsm]
  | cons c t ih =>
    simp only [List.map_cons, List.sum_cons, List.flatten_cons]
    rw [digitMsm_append, ih]

theorem windowSum_chunks {G : Type} [AddCommGroup G] (w j : Nat)
    (chunks : List (List (G × Nat))) :
    (chunks.map (fun c => windowSum w j c)).sum = windowSum w j chunks.flatten := by
  simp only [windowSum_eq_digitMsm]
  exact digitMsm_flatten w j chunks

/-- C7: the results of `bound_poly_var_top`, `msm` and `evaluate` are
deterministic functions of their inputs, independent of how the
data-parallel phase partitions the work: for every partition of the index
range into chunks, computing each chunk independently and combining the
per-chunk results sequentially yields exactly the sequential result of the
operation. -/
theorem parallel_chunking_determinism {F G : Type} [Field F] [AddCommGroup G]
    (r : F) (w : Nat) (p : DensePolynomial F) (point : List F)
    (bases : List G) (scalars : List Nat)
    (chA : List (List F × List F)) (chB : List (List (G × Nat)))
    (chC : List (List F × List F))
    (hA0 : p.num_vars ≠ 0)
    (hA1 : (chA.map Prod.fst).flatten = p.Z.take (p.Z.length / 2))
    (hA2 : (chA.map Prod.snd).flatten = p.Z.drop (p.Z.length / 2))
    (hA3 : ∀ c ∈ chA, c.1.length = c.2.length)
    (hB1 : bases.length = scalars.length)
    (hB2 : chB.flatten = bases.zip scalars)
    (hC1 : point.length = p.num_vars)
    (hC2 : (chC.map Prod.fst).flatten = chis point)
    (hC3 : (chC.map Prod.snd).flatten = p.Z)
    (hC4 : ∀ c ∈ chC, c.1.length = c.2.length) :
    bound_poly_var_top p r =
        Except.ok ⟨p.num_vars - 1,
          (chA.map (fun c =>
            List.zipWith (fun a b => a + r * (b - a)) c.1 c.2)).flatten⟩ ∧
      msm w bases scalars =
        Except.ok (hornerCombine w (((List.range (maxSize scalars)).reverse).map
          (fun j => (chB.map (fun c => windowSum w j c)).sum))) ∧
      evaluate p point = Except.ok ((chC.map (fun c => dot c.1 c.2)).sum) := by
  refine ⟨?_, ?_, ?_⟩
  · rw [zipWith_flatten_chunks _ chA hA3, hA1, hA2]
    unfold bound_poly_var_top
    rw [if_neg hA0]
  · unfold msm
    rw [if_pos hB1]
    unfold msmWindowed
    apply congrArg
    apply congrArg
    apply List.map_congr_left
    intro j _
    rw [windowSum_chunks w j chB, hB2]
  · unfold evaluate
    rw [if_pos hC1]
    rw [dot_chunks chC hC4, hC2, hC3]

theorem parallel_chunking_determinism_witness :
    bound_poly_var_top (⟨2, [1, 2, 3, 4]⟩ : DensePolynomial ℚ) 5 =
        Except.ok ⟨(⟨2, [1, 2, 3, 4]⟩ : DensePolynomial ℚ).num_vars - 1,
          ([([(1 : ℚ), 2], [(3 : ℚ), 4])].map (fun c =>
            List.zipWith (fun a b => a + 5 * (b - a)) c.1 c.2)).flatten⟩ ∧
      msm 1 [(5 : ℤ), 7] [2, 3] =
        Except.ok (hornerCombine 1 (((List.range (maxSize [2, 3])).reverse).map
          (fun j => ([[((5 : ℤ), 2), (7, 3)]].map
            (fun c => windowSum 1 j c)).sum))) ∧
      evaluate (⟨2, [1, 2, 3, 4]⟩ : DensePolynomial ℚ) [5, 0] =
        Except.ok (([(chis ([5, 0] : List ℚ), [(1 : ℚ), 2, 3, 4])].map
          (fun c => dot c.1 c.2)).sum) :=
  parallel_chunking_determinism 5 1 (⟨2, [1, 2, 3, 4]⟩ : DensePolynomial ℚ)
    [5, 0] [(5 : ℤ), 7] [2, 3]
    [([(1 : ℚ), 2], [(3 : ℚ), 4])] [[((5 : ℤ), 2), (7, 3)]]
    [(chis ([5, 0] : List ℚ), [(1 : ℚ), 2, 3, 4])]
    (by decide) rfl rfl (by decide) rfl rfl rfl rfl rfl (by decide)

/-! ## Claims about the toolchain helpers -/

theorem retryLoop_count {α : Type} (f : Nat → Except String α) (times : Nat) :
    ∀ (fuel i : Nat), (retryLoop f times fuel i).2 ≤ fuel + i := by
  intro fuel
  induction fuel with
  | zero => intro i; simp [retryLoop]
  | succ fuel ih =>
    intro i
    simp only [retryLoop]
    cases hfi : f i with
    | ok t => simp; omega
    | error e =>
      simp only
      have := ih (i + 1)
      omega

theorem retryLoop_ok {α : Type} (f : Nat → Except String α) (times : Nat) :
    ∀ (fuel i k : Nat) (v : α), i ≤ k → k < fuel + i → f k = Except.ok v →
      (∀ j, i ≤ j → j < k → ∃ e, f j = Except.error e) →
      retryLoop f times fuel i = (Except.ok v, k + 1) := by
  intro fuel
  induction fuel with
  | zero => intro i k v h1 h2 _ _; omega
  | succ fuel ih =>
    intro i k v h1 h2 hk herr
    simp only [retryLoop]
    rcases Nat.eq_or_lt_of_le h1 with heq | hlt
    · subst heq
      rw [hk]
    · obtain ⟨e, he⟩ := herr i (le_refl i) hlt
      rw [he]
      exact ih (i + 1) k v (by omega) (by omega) hk
        (fun j hj1 hj2 => herr j (by omega) hj2)

theorem retryLoop_err {α : Type} (f : Nat → Except String α) (times : Nat) :
    ∀ (fuel i : Nat), (∀ j, i ≤ j → j < fuel + i → ∃ e, f j = Except.error e) →
      retryLoop f times fuel i = (Except.error (retryMsg times), fuel + i) := by
  intro fuel
  induction fuel with
  | zero => intro i _; simp [retryLoop]
  | succ fuel ih =>
    intro i herr
    obtain ⟨e, he⟩ := herr i (le_refl i) (by omega)
    simp only [retryLoop]
    rw [he]
    show retryLoop f times fuel (i + 1) = _
    rw [ih (i + 1) (fun j hj1 hj2 => herr j (by omega) (by omega))]
    have harith : fuel + (i + 1) = fuel + 1 + i := by omega
    rw [harith]

/-- C8: for `times ≥ 1`, `retry_times` invokes `f` at most `times` times
(the second component counts invocations); if some invocation returns `Ok`,
the first such value is returned immediately with no further invocation; if
all `times` invocations fail, the result is the error
"Failed after {times} retries". -/
theorem retry_times_spec {α : Type} (base_ms times : Nat)
    (f : Nat → Except String α) (htimes : 1 ≤ times) :
    (retry_times times base_ms f).2 ≤ times ∧
      (∀ k v, k < times → f k = Except.ok v →
        (∀ j, j < k → ∃ e, f j = Except.error e) →
        retry_times times base_ms f = (Except.ok v, k + 1)) ∧
      ((∀ j, j < times → ∃ e, f j = Except.error e) →
        retry_times times base_ms f = (Except.error (retryMsg times), times)) := by
  refine ⟨?_, ?_, ?_⟩
  · have h := retryLoop_count f times times 0
    simpa using h
  · intro k v hk hfk herr
    unfold retry_times
    exact retryLoop_ok f times times 0 k v (by omega) (by omega) hfk
      (fun j _ hj => herr j hj)
  · intro herr
    unfold retry_times
    have h := retryLoop_err f times times 0 (fun j _ hj => herr j (by omega))
    simpa using h

theorem retry_times_spec_witness :
    retry_times 3 500
        (fun k => if k = 1 then Except.ok 42 else Except.error "boom") =
      (Except.ok 42, 2) := by
  have h := retry_times_spec 500 3
    (fun k => if k = 1 then Except.ok 42 else Except.error "boom") (by omega)
  exact h.2.1 1 42 (by omega) (by simp) (fun j hj => ⟨"boom", by
    have hj0 : j = 0 := by omega
    subst hj0
    rfl⟩)

/-- C9: when `has_toolchain` returns true (the tag file is readable and its
content equals the compiled-in tag), `install_toolchain` performs no
download attempt, no archive unpacking and no tag-file write; the only
action taken is linking the toolchain. -/
theorem install_toolchain_skip (toolchainTag : String)
    (tagFileContent : Option String) (downloadActions : List ToolchainAction)
    (h : has_toolchain toolchainTag tagFileContent = true) :
    (has_toolchain toolchainTag tagFileContent = true ↔
        tagFileContent = some toolchainTag) ∧
      install_toolchain_trace toolchainTag tagFileContent downloadActions =
        [ToolchainAction.link] ∧
      ToolchainAction.downloadAttempt ∉
        install_toolchain_trace toolchainTag tagFileContent downloadActions ∧
      ToolchainAction.unpack ∉
        install_toolchain_trace toolchainTag tagFileContent downloadActions ∧
      ToolchainAction.writeTag ∉
        install_toolchain_trace toolchainTag tagFileContent downloadActions := by
  have htrace : install_toolchain_trace toolchainTag tagFileContent
      downloadActions = [ToolchainAction.link] := by
    unfold install_toolchain_trace
    rw [if_pos h]
  refine ⟨⟨fun _ => ?_, fun _ => h⟩, htrace, ?_, ?_, ?_⟩
  · cases tagFileContent with
    | none => simp [has_toolchain] at h
    | some t =>
      simp only [has_toolchain] at h
      rw [eq_of_beq h]
  · rw [htrace]; simp
  · rw [htrace]; simp
  · rw [htrace]; simp

theorem install_toolchain_skip_witness :
    (has_toolchain "jolt-tag" (some "jolt-tag") = true ↔
        some "jolt-tag" = some "jolt-tag") ∧
      install_toolchain_trace "jolt-tag" (some "jolt-tag")
          [ToolchainAction.downloadAttempt] = [ToolchainAction.link] ∧
      ToolchainAction.downloadAttempt ∉
        install_toolchain_trace "jolt-tag" (some "jolt-tag")
          [ToolchainAction.downloadAttempt] ∧
      ToolchainAction.unpack ∉
        install_toolchain_trace "jolt-tag" (some "jolt-tag")
          [ToolchainAction.downloadAttempt] ∧
      ToolchainAction.writeTag ∉
        install_toolchain_trace "jolt-tag" (some "jolt-tag")
          [ToolchainAction.downloadAttempt] :=
  install_toolchain_skip "jolt-tag" (some "jolt-tag")
    [ToolchainAction.downloadAttempt] (by decide)

/-- C10: when `2 ^ i * base_ms` neither overflows `u64` nor is zero,
`delay_timeout` does not hit the division-by-zero panic and returns a value
strictly below `2 ^ i * base_ms`; moreover the precondition holds for every
attempt index below `DOWNLOAD_RETRIES` with `base_ms = DELAY_BASE_MS`. -/
theorem delay_timeout_spec (i base_ms r : Nat)
    (hov : 2 ^ i * base_ms < 2 ^ 64) (hnz : 2 ^ i * base_ms ≠ 0) :
    delay_timeout i base_ms r = some (r % (2 ^ i * base_ms)) ∧
      r % (2 ^ i * base_ms) < 2 ^ i * base_ms ∧
      ∀ j, j < DOWNLOAD_RETRIES →
        2 ^ j * DELAY_BASE_MS < 2 ^ 64 ∧ 2 ^ j * DELAY_BASE_MS ≠ 0 := by
  have hbpos : 0 < base_ms := by
    rcases Nat.eq_zero_or_pos base_ms with h0 | h0
    · exact absurd (by rw [h0, Nat.mul_zero]) hnz
    · exact h0
  have hile : 2 ^ i ≤ 2 ^ i * base_ms := Nat.le_mul_of_pos_right _ hbpos
  have hmod1 : 2 ^ i % 2 ^ 64 = 2 ^ i := Nat.mod_eq_of_lt (by omega)
  have hmod2 : 2 ^ i * base_ms % 2 ^ 64 = 2 ^ i * base_ms :=
    Nat.mod_eq_of_lt hov
  have hto : (2 ^ i % 2 ^ 64) * base_ms % 2 ^ 64 = 2 ^ i * base_ms := by
    rw [hmod1, hmod2]
  refine ⟨?_, Nat.mod_lt _ (Nat.pos_of_ne_zero hnz), ?_⟩
  · unfold delay_timeout
    rw [hto, if_neg hnz]
  · intro j hj
    have h5 : DOWNLOAD_RETRIES = 5 := rfl
    rw [h5] at hj
    have hb : DELAY_BASE_MS = 500 := rfl
    have hpow : 2 ^ j ≤ 2 ^ 4 := Nat.pow_le_pow_right (by omega) (by omega)
    have hjpos : 0 < 2 ^ j := pow_pos (by omega) j
    constructor
    · rw [hb]
      have hle : 2 ^ j * 500 ≤ 2 ^ 4 * 500 := Nat.mul_le_mul hpow (le_refl 500)
      have h64 : (2 : Nat) ^ 4 * 500 < 2 ^ 64 := by decide
      omega
    · rw [hb]
      omega

theorem delay_timeout_spec_witness :
    delay_timeout 3 500 123456 = some (123456 % (2 ^ 3 * 500)) ∧
      123456 % (2 ^ 3 * 500) < 2 ^ 3 * 500 := by
  have h := delay_timeout_spec 3 500 123456 (by decide) (by decide)
  exact ⟨h.1, h.2.1⟩

end Jolt
